import Mathlib

/-!
# Verification of goPaperMC version-resolution and verified-download logic

This development embeds, as executable Lean definitions, the core logic of the
goPaperMC client:

* the `golang.org/x/mod/semver` comparator used by `FlattenVersions`
  (`semver.parse`, `semver.compareInt`, `semver.comparePrerelease`,
  `semver.Compare`), modelled at the level of `List Char`;
* `FlattenVersions` (sorting the union of all version groups);
* the client operations `GetBuilds`, `GetLatestBuildV3`, `FindPromotedBuild`,
  `GetRecommendedVersion`, `isSnapshotOrPreRelease`, and `DownloadFile`
  (with external effects — HTTP responses and filesystem outcomes — passed in
  as explicit arguments);
* SHA-256 and hex encoding as used by `DownloadFile`;
* the item-limit truncation applied by the list-returning client operations.

Ordering facts about the semver comparator are proved by exhibiting, for each
comparator in the source, an order-isomorphic "key" comparator built from
generic lawful combinators (products, sums, options, lexicographic lists).
-/

/-! ## Generic comparator infrastructure -/

/-- A lawful three-way comparator: antisymmetric under `Ordering.swap`,
`eq` exactly on equal arguments, and transitive on strict `lt`. -/
structure CmpKit {α : Type _} (c : α → α → Ordering) : Prop where
  symm : ∀ x y, c x y = (c y x).swap
  eq_iff : ∀ x y, c x y = Ordering.eq ↔ x = y
  lt_trans : ∀ x y z, c x y = Ordering.lt → c y z = Ordering.lt → c x z = Ordering.lt

theorem Ordering.swap_eq_lt {o : Ordering} : o.swap = Ordering.lt ↔ o = Ordering.gt := by
  cases o <;> simp [Ordering.swap]

theorem Ordering.swap_eq_gt {o : Ordering} : o.swap = Ordering.gt ↔ o = Ordering.lt := by
  cases o <;> simp [Ordering.swap]

theorem Ordering.swap_eq_eq {o : Ordering} : o.swap = Ordering.eq ↔ o = Ordering.eq := by
  cases o <;> simp [Ordering.swap]

theorem CmpKit.refl {c : α → α → Ordering} (k : CmpKit c) (x : α) : c x x = Ordering.eq :=
  (k.eq_iff x x).mpr rfl

theorem CmpKit.gt_iff {c : α → α → Ordering} (k : CmpKit c) (x y : α) :
    c x y = Ordering.gt ↔ c y x = Ordering.lt := by
  rw [k.symm x y, Ordering.swap_eq_gt]

theorem CmpKit.le_trans {c : α → α → Ordering} (k : CmpKit c) {x y z : α}
    (h1 : c x y ≠ Ordering.gt) (h2 : c y z ≠ Ordering.gt) : c x z ≠ Ordering.gt := by
  rcases hxy : c x y with _ | _ | _
  · rcases hyz : c y z with _ | _ | _
    · simp [k.lt_trans x y z hxy hyz]
    · have heq : y = z := (k.eq_iff _ _).mp hyz
      subst heq
      simp [hxy]
    · exact absurd hyz h2
  · have heq : x = y := (k.eq_iff _ _).mp hxy
    subst heq
    exact h2
  · exact absurd hxy h1

theorem CmpKit.total {c : α → α → Ordering} (k : CmpKit c) (x y : α) :
    c x y ≠ Ordering.gt ∨ c y x ≠ Ordering.gt := by
  rcases h : c x y with _ | _ | _
  · exact Or.inl (by simp)
  · exact Or.inl (by simp)
  · right
    rw [(k.gt_iff x y).mp h]
    simp

/-- Comparator on pairs: first component, then second. -/
def pairCmp (ca : α → α → Ordering) (cb : β → β → Ordering) (p q : α × β) : Ordering :=
  (ca p.1 q.1).then (cb p.2 q.2)

/-- Comparator on sums: every `inl` is below every `inr`. -/
def sumCmp (ca : α → α → Ordering) (cb : β → β → Ordering) : α ⊕ β → α ⊕ β → Ordering
  | Sum.inl a, Sum.inl a' => ca a a'
  | Sum.inl _, Sum.inr _ => Ordering.lt
  | Sum.inr _, Sum.inl _ => Ordering.gt
  | Sum.inr b, Sum.inr b' => cb b b'

/-- Comparator on options with `none` below every `some`. -/
def optFirstCmp (c : α → α → Ordering) : Option α → Option α → Ordering
  | none, none => Ordering.eq
  | none, some _ => Ordering.lt
  | some _, none => Ordering.gt
  | some a, some b => c a b

/-- Comparator on options with `none` above every `some`. -/
def optLastCmp (c : α → α → Ordering) : Option α → Option α → Ordering
  | none, none => Ordering.eq
  | none, some _ => Ordering.gt
  | some _, none => Ordering.lt
  | some a, some b => c a b

/-- Lexicographic comparator on lists; a proper prefix is smaller. -/
def lexCmp (c : α → α → Ordering) : List α → List α → Ordering
  | [], [] => Ordering.eq
  | [], _ :: _ => Ordering.lt
  | _ :: _, [] => Ordering.gt
  | a :: as, b :: bs => (c a b).then (lexCmp c as bs)

theorem pairCmp_kit {ca : α → α → Ordering} {cb : β → β → Ordering}
    (ka : CmpKit ca) (kb : CmpKit cb) : CmpKit (pairCmp ca cb) := by
  constructor
  · intro x y
    simp only [pairCmp, Ordering.swap_then]
    rw [ka.symm, kb.symm]
  · intro x y
    simp only [pairCmp, Ordering.then_eq_eq, ka.eq_iff, kb.eq_iff]
    constructor
    · rintro ⟨h1, h2⟩
      exact Prod.ext h1 h2
    · rintro rfl
      exact ⟨rfl, rfl⟩
  · intro x y z hxy hyz
    simp only [pairCmp, Ordering.then_eq_lt] at *
    rcases hxy with h1 | ⟨h1, h1'⟩ <;> rcases hyz with h2 | ⟨h2, h2'⟩
    · exact Or.inl (ka.lt_trans _ _ _ h1 h2)
    · rw [(ka.eq_iff _ _).mp h2] at h1
      exact Or.inl h1
    · rw [(ka.eq_iff _ _).mp h1]
      exact Or.inl h2
    · rw [(ka.eq_iff _ _).mp h1, (ka.eq_iff _ _).mp h2]
      exact Or.inr ⟨ka.refl _, kb.lt_trans _ _ _ h1' h2'⟩

theorem sumCmp_kit {ca : α → α → Ordering} {cb : β → β → Ordering}
    (ka : CmpKit ca) (kb : CmpKit cb) : CmpKit (sumCmp ca cb) := by
  constructor
  · rintro (x | x) (y | y) <;> simp [sumCmp, Ordering.swap]
    · exact ka.symm x y
    · exact kb.symm x y
  · rintro (x | x) (y | y) <;> simp [sumCmp, ka.eq_iff, kb.eq_iff]
  · rintro (x | x) (y | y) (z | z) hxy hyz <;> simp_all [sumCmp]
    exact ka.lt_trans _ _ _ hxy hyz
    exact kb.lt_trans _ _ _ hxy hyz

theorem optFirstCmp_kit {c : α → α → Ordering} (k : CmpKit c) : CmpKit (optFirstCmp c) := by
  constructor
  · rintro (_ | x) (_ | y) <;> simp [optFirstCmp, Ordering.swap]
    exact k.symm x y
  · rintro (_ | x) (_ | y) <;> simp [optFirstCmp, k.eq_iff]
  · rintro (_ | x) (_ | y) (_ | z) hxy hyz <;> simp_all [optFirstCmp]
    exact k.lt_trans _ _ _ hxy hyz

theorem optLastCmp_kit {c : α → α → Ordering} (k : CmpKit c) : CmpKit (optLastCmp c) := by
  constructor
  · rintro (_ | x) (_ | y) <;> simp [optLastCmp, Ordering.swap]
    exact k.symm x y
  · rintro (_ | x) (_ | y) <;> simp [optLastCmp, k.eq_iff]
  · rintro (_ | x) (_ | y) (_ | z) hxy hyz <;> simp_all [optLastCmp]
    exact k.lt_trans _ _ _ hxy hyz

theorem lexCmp_kit {c : α → α → Ordering} (k : CmpKit c) : CmpKit (lexCmp c) := by
  constructor
  · intro x
    induction x with
    | nil => intro y; cases y <;> simp [lexCmp, Ordering.swap]
    | cons a as ih =>
      intro y
      cases y with
      | nil => simp [lexCmp, Ordering.swap]
      | cons b bs => simp only [lexCmp, Ordering.swap_then]; rw [k.symm, ih bs]
  · intro x
    induction x with
    | nil => intro y; cases y <;> simp [lexCmp]
    | cons a as ih =>
      intro y
      cases y with
      | nil => simp [lexCmp]
      | cons b bs =>
        simp only [lexCmp, Ordering.then_eq_eq, k.eq_iff, ih bs, List.cons.injEq]
  · intro x
    induction x with
    | nil =>
      rintro (_ | ⟨b, bs⟩) (_ | ⟨z, zs⟩) hxy hyz <;> simp_all [lexCmp]
    | cons a as ih =>
      rintro (_ | ⟨b, bs⟩) (_ | ⟨z, zs⟩) hxy hyz <;> simp_all [lexCmp]
      rw [Ordering.then_eq_lt] at *
      rcases hxy with h1 | ⟨h1, h1'⟩ <;> rcases hyz with h2 | ⟨h2, h2'⟩
      · exact Or.inl (k.lt_trans _ _ _ h1 h2)
      · rw [(k.eq_iff _ _).mp h2] at h1
        exact Or.inl h1
      · rw [(k.eq_iff _ _).mp h1]
        exact Or.inl h2
      · rw [(k.eq_iff _ _).mp h1, (k.eq_iff _ _).mp h2]
        exact Or.inr ⟨k.refl _, ih bs zs h1' h2'⟩

/-- Three-way comparison on `Nat`. -/
def natCmp (m n : Nat) : Ordering :=
  if m < n then Ordering.lt else if n < m then Ordering.gt else Ordering.eq

theorem natCmp_kit : CmpKit natCmp := by
  constructor
  · intro x y
    unfold natCmp
    split <;> split <;> simp [Ordering.swap] <;> omega
  · intro x y
    unfold natCmp
    split <;> [skip; split] <;> simp <;> omega
  · intro x y z hxy hyz
    unfold natCmp at *
    split at hxy <;> simp_all <;> omega

/-- Three-way comparison on `Char` by code point (Go compares strings byte-wise,
which for UTF-8 agrees with code-point order). -/
def charCmp (c d : Char) : Ordering :=
  if c < d then Ordering.lt else if d < c then Ordering.gt else Ordering.eq

theorem charCmp_kit : CmpKit charCmp := by
  constructor
  · intro x y
    unfold charCmp
    rcases lt_trichotomy x y with h | h | h
    · simp [h, asymm h, Ordering.swap]
    · simp [h, lt_irrefl, Ordering.swap]
    · simp [h, asymm h, Ordering.swap]
  · intro x y
    unfold charCmp
    rcases lt_trichotomy x y with h | h | h
    · simp [h, ne_of_lt h]
    · simp [h, lt_irrefl]
    · simp [h, asymm h, (ne_of_lt h).symm]
  · intro x y z hxy hyz
    unfold charCmp at *
    split at hxy <;> simp_all <;> exact lt_trans ‹x < y› ‹y < z›

/-! ## The `golang.org/x/mod/semver` comparator

`FlattenVersions` sorts with `semver.Compare("v"+vi, "v"+vj) < 0`.  The
definitions below translate `golang.org/x/mod/semver` (parse, parseInt,
parsePrerelease, parseBuild, compareInt, comparePrerelease, Compare) onto
`List Char`.  Go strings are byte sequences; byte-wise comparison of UTF-8
agrees with the code-point comparison used here. -/

namespace semver

/-- `'0' ≤ c ≤ '9'`, the digit test used throughout `parseInt`/`isNum`. -/
def isDigitChar (c : Char) : Bool :=
  decide ('0' ≤ c) && decide (c ≤ '9')

/-- Go `isIdentChar`: ASCII letters, digits and `-`. -/
def isIdentChar (c : Char) : Bool :=
  (decide ('A' ≤ c) && decide (c ≤ 'Z')) || (decide ('a' ≤ c) && decide (c ≤ 'z')) ||
    (decide ('0' ≤ c) && decide (c ≤ '9')) || c == '-'

/-- Go `isNum`: every character is a digit (vacuously true for `""`). -/
def isNum (s : List Char) : Bool :=
  s.all isDigitChar

/-- Go `isBadNum`: an all-digit identifier of length at least two with a
leading zero. -/
def isBadNum (s : List Char) : Bool :=
  s.all isDigitChar &&
    (match s with
     | c :: _ :: _ => c == '0'
     | _ => false)

/-- Go `parseInt`: a nonempty digit run with no leading zero (except `"0"`
itself); returns the run and the remainder. -/
def parseInt (v : List Char) : Option (List Char × List Char) :=
  match v with
  | [] => none
  | c :: _ =>
    if isDigitChar c = false then none
    else
      let t := v.takeWhile isDigitChar
      let rest := v.dropWhile isDigitChar
      if c == '0' && decide (t.length ≠ 1) then none else some (t, rest)

/-- Splits a character list on `'.'`; mirrors the `start`/`i` segment walk in
Go `parsePrerelease`/`parseBuild` and the `nextIdent` splitting in
`comparePrerelease`.  Always returns at least one (possibly empty) segment. -/
def splitDots : List Char → List (List Char)
  | [] => [[]]
  | c :: s =>
    if c == '.' then [] :: splitDots s
    else
      match splitDots s with
      | seg :: segs => (c :: seg) :: segs
      | [] => [[c]]

/-- Go `parsePrerelease`: consumes `-` followed by dot-separated identifiers
(stopping at `+`); every identifier must be nonempty, drawn from the
identifier alphabet, and not a numeric identifier with a leading zero.
Returns the consumed text (including the `-`) and the remainder. -/
def parsePrerelease (v : List Char) : Option (List Char × List Char) :=
  match v with
  | '-' :: v1 =>
    let body := v1.takeWhile (fun c => c != '+')
    let rest := v1.dropWhile (fun c => c != '+')
    if body.all (fun c => isIdentChar c || c == '.') = false then none
    else if (splitDots body).all (fun seg => !(seg.isEmpty) && !(isBadNum seg)) = false then none
    else some ('-' :: body, rest)
  | _ => none

/-- Go `parseBuild`: consumes `+` followed by dot-separated nonempty
identifiers, to the end of the string. -/
def parseBuild (v : List Char) : Option (List Char × List Char) :=
  match v with
  | '+' :: v1 =>
    if v1.all (fun c => isIdentChar c || c == '.') = false then none
    else if (splitDots v1).all (fun seg => !(seg.isEmpty)) = false then none
    else some (v, [])
  | _ => none

/-- The fields of Go's `parsed` that `Compare` reads (`short` and `build`
are parsed for validity but never compared). -/
structure Parsed where
  major : List Char
  minor : List Char
  patch : List Char
  prerelease : List Char
deriving DecidableEq, Repr

/-- Go `parse`, steps after the prerelease: an optional `+build` part, after
which nothing may remain. -/
def parseFinish (major minor patch pre : List Char) (r : List Char) : Option Parsed :=
  match r with
  | '+' :: _ =>
    match parseBuild r with
    | none => none
    | some (_, r5) => if r5 = [] then some ⟨major, minor, patch, pre⟩ else none
  | [] => some ⟨major, minor, patch, pre⟩
  | _ => none

/-- Go `parse`, step after the patch number: an optional `-prerelease` part. -/
def parseTail (major minor patch : List Char) (r : List Char) : Option Parsed :=
  match r with
  | '-' :: _ =>
    match parsePrerelease r with
    | none => none
    | some (pre, r4) => parseFinish major minor patch pre r4
  | _ => parseFinish major minor patch [] r

/-- Go `parse`: `v` followed by `major[.minor[.patch]][-prerelease][+build]`,
with omitted minor/patch components defaulting to `"0"`. -/
def parse (v : List Char) : Option Parsed :=
  match v with
  | 'v' :: v1 =>
    match parseInt v1 with
    | none => none
    | some (major, r1) =>
      match r1 with
      | [] => some ⟨major, ['0'], ['0'], []⟩
      | '.' :: r1' =>
        match parseInt r1' with
        | none => none
        | some (minor, r2) =>
          match r2 with
          | [] => some ⟨major, minor, ['0'], []⟩
          | '.' :: r2' =>
            match parseInt r2' with
            | none => none
            | some (patch, r3) => parseTail major minor patch r3
          | _ => none
      | _ => none
  | _ => none

/-- Go string `<` (byte-wise lexicographic; code-point order here). -/
def strLess : List Char → List Char → Bool
  | [], [] => false
  | [], _ :: _ => true
  | _ :: _, [] => false
  | c :: xs, d :: ys => if c < d then true else if d < c then false else strLess xs ys

/-- Go `compareInt`: numeric strings without leading zeros compare by length,
then lexicographically. -/
def compareInt (x y : List Char) : Ordering :=
  if x = y then Ordering.eq
  else if x.length < y.length then Ordering.lt
  else if y.length < x.length then Ordering.gt
  else if strLess x y then Ordering.lt
  else Ordering.gt

/-- The identifier comparison inlined in the loop of Go `comparePrerelease`
(reached with `dx ≠ dy`): numeric identifiers sort below alphanumeric ones;
numeric identifiers compare by length then text; otherwise plain text
comparison. -/
def identCmp (dx dy : List Char) : Ordering :=
  if dx = dy then Ordering.eq
  else if isNum dx ≠ isNum dy then (if isNum dx then Ordering.lt else Ordering.gt)
  else if isNum dx ∧ dx.length < dy.length then Ordering.lt
  else if isNum dx ∧ dy.length < dx.length then Ordering.gt
  else if strLess dx dy then Ordering.lt
  else Ordering.gt

/-- The loop of Go `comparePrerelease`, on the identifier sequences it walks:
each iteration drops the separator, splits off the next identifiers with
`nextIdent`, compares them, and continues while they agree; the side whose
remainder is exhausted first (Go `x == ""`, checked on `x` first) is smaller. -/
def cprIdents : List (List Char) → List (List Char) → Ordering
  | [], _ => Ordering.lt
  | _ :: _, [] => Ordering.gt
  | dx :: xs, dy :: ys => if dx = dy then cprIdents xs ys else identCmp dx dy

/-- Go `comparePrerelease`: the empty prerelease (a release) is greater than
any prerelease; otherwise drop the leading `-` on both sides and run the
identifier loop over the dot-separated identifiers. -/
def comparePrerelease (x y : List Char) : Ordering :=
  if x = y then Ordering.eq
  else if x = [] then Ordering.gt
  else if y = [] then Ordering.lt
  else cprIdents (splitDots (x.drop 1)) (splitDots (y.drop 1))

/-- The comparison chain of Go `Compare` on two parsed versions. -/
def compareParsed (pv pw : Parsed) : Ordering :=
  (compareInt pv.major pw.major).then
    ((compareInt pv.minor pw.minor).then
      ((compareInt pv.patch pw.patch).then
        (comparePrerelease pv.prerelease pw.prerelease)))

/-- Go `semver.Compare` (as an `Ordering` in place of `-1/0/+1`): invalid
versions compare below valid ones and equal to each other. -/
def Compare (v w : String) : Ordering :=
  match parse v.data, parse w.data with
  | none, none => Ordering.eq
  | none, some _ => Ordering.lt
  | some _, none => Ordering.gt
  | some pv, some pw => compareParsed pv pw

end semver

example : semver.Compare "v1.21.11-rc3" "v1.21.11" = Ordering.lt := by decide
example : semver.Compare "v1.7.10" "v1.21.10" = Ordering.lt := by decide
example : semver.Compare "v1.21.10" "v1.21.11-rc2" = Ordering.lt := by decide
example : semver.Compare "v1.21.11-rc2" "v1.21.11-rc3" = Ordering.lt := by decide
example : semver.Compare "v1.0.0-2" "v1.0.0-10" = Ordering.lt := by decide
example : semver.Compare "v1.2.3.4" "v1.0.0" = Ordering.lt := by decide
example : semver.Compare "v1.0.0-alpha.1" "v1.0.0-alpha.beta" = Ordering.lt := by decide
example : semver.Compare "v1.21" "v1.21.0" = Ordering.eq := by decide

/-! ## Keys: an order-isomorphic view of the semver comparator -/

theorem Ordering.then_left_of_ne_eq {o p : Ordering} (h : o ≠ Ordering.eq) : o.then p = o := by
  cases o <;> simp_all [Ordering.then]

namespace semver

theorem strLess_iff_lex (x : List Char) : ∀ y, strLess x y = true ↔ lexCmp charCmp x y = Ordering.lt := by
  induction x with
  | nil => intro y; cases y <;> simp [strLess, lexCmp]
  | cons a as ih =>
    intro y
    cases y with
    | nil => simp [strLess, lexCmp]
    | cons b bs =>
      by_cases hab : a < b
      · simp [strLess, lexCmp, charCmp, hab, Ordering.then]
      · by_cases hba : b < a
        · simp [strLess, lexCmp, charCmp, hab, hba, Ordering.then]
        · simp [strLess, lexCmp, charCmp, hab, hba, Ordering.then, ih bs]

theorem lexCmp_char_trichotomy (x y : List Char) (hne : x ≠ y) (hlt : strLess x y = false) :
    lexCmp charCmp x y = Ordering.gt := by
  rcases h : lexCmp charCmp x y with _ | _ | _
  · rw [← strLess_iff_lex] at h
    simp [h] at hlt
  · exact absurd (((lexCmp_kit charCmp_kit).eq_iff x y).mp h) hne
  · rfl

/-- The comparison key of a `parseInt` output: length first, then text. -/
def intKey (s : List Char) : Nat × List Char :=
  (s.length, s)

/-- Comparator matching `compareInt` through `intKey`. -/
def intKeyCmp : Nat × List Char → Nat × List Char → Ordering :=
  pairCmp natCmp (lexCmp charCmp)

theorem intKeyCmp_kit : CmpKit intKeyCmp :=
  pairCmp_kit natCmp_kit (lexCmp_kit charCmp_kit)

theorem compareInt_eq_key (x y : List Char) :
    compareInt x y = intKeyCmp (intKey x) (intKey y) := by
  by_cases hxy : x = y
  · subst hxy
    rw [compareInt, if_pos rfl, (intKeyCmp_kit.refl _)]
  · rw [compareInt, if_neg hxy]
    rcases Nat.lt_trichotomy x.length y.length with h | h | h
    · simp [h, intKeyCmp, pairCmp, intKey, natCmp, Ordering.then]
    · have h1 : ¬ x.length < y.length := by omega
      have h2 : ¬ y.length < x.length := by omega
      rw [if_neg h1, if_neg h2]
      have hkey : intKeyCmp (intKey x) (intKey y) = lexCmp charCmp x y := by
        simp [intKeyCmp, pairCmp, intKey, natCmp, h1, h2, Ordering.then]
      rw [hkey]
      by_cases hs : strLess x y
      · rw [if_pos hs, ((strLess_iff_lex x y).mp hs).symm]
      · rw [if_neg hs, lexCmp_char_trichotomy x y hxy (by simpa using hs)]
    · have h1 : ¬ x.length < y.length := by omega
      simp [h, h1, intKeyCmp, pairCmp, intKey, natCmp, Ordering.then]

/-- The comparison key of a prerelease identifier: numeric identifiers (as
length-then-text) below alphanumeric ones (as text). -/
def identKey (s : List Char) : (Nat × List Char) ⊕ List Char :=
  if isNum s then Sum.inl (intKey s) else Sum.inr s

/-- Comparator matching `identCmp` through `identKey`. -/
def idKeyCmp : (Nat × List Char) ⊕ List Char → (Nat × List Char) ⊕ List Char → Ordering :=
  sumCmp intKeyCmp (lexCmp charCmp)

theorem idKeyCmp_kit : CmpKit idKeyCmp :=
  sumCmp_kit intKeyCmp_kit (lexCmp_kit charCmp_kit)

theorem identKey_inj {x y : List Char} (h : identKey x = identKey y) : x = y := by
  unfold identKey intKey at h
  by_cases hx : isNum x <;> by_cases hy : isNum y <;> simp [hx, hy] at h
  · exact h.2
  · exact h

theorem identCmp_eq_key (x y : List Char) :
    identCmp x y = idKeyCmp (identKey x) (identKey y) := by
  by_cases hxy : x = y
  · subst hxy
    rw [identCmp, if_pos rfl, (idKeyCmp_kit.refl _)]
  · rw [identCmp, if_neg hxy]
    by_cases hnx : isNum x <;> by_cases hny : isNum y
    · have hflag : ¬ (isNum x ≠ isNum y) := by simp [hnx, hny]
      rw [if_neg hflag]
      simp only [identKey, hnx, hny, if_pos, idKeyCmp, sumCmp]
      rcases Nat.lt_trichotomy x.length y.length with h | h | h
      · simp [hnx, h, intKeyCmp, pairCmp, intKey, natCmp, Ordering.then]
      · have h1 : ¬ x.length < y.length := by omega
        have h2 : ¬ y.length < x.length := by omega
        rw [if_neg (by simp [h1]), if_neg (by simp [h2])]
        have hkey : intKeyCmp (intKey x) (intKey y) = lexCmp charCmp x y := by
          simp [intKeyCmp, pairCmp, intKey, natCmp, h1, h2, Ordering.then]
        rw [hkey]
        by_cases hs : strLess x y
        · rw [if_pos hs, ((strLess_iff_lex x y).mp hs).symm]
        · rw [if_neg hs, lexCmp_char_trichotomy x y hxy (by simpa using hs)]
      · have h2 : ¬ x.length < y.length := by omega
        simp [hnx, h, h2, intKeyCmp, pairCmp, intKey, natCmp, Ordering.then]
    · have hflag : isNum x ≠ isNum y := by simp [hnx, hny]
      simp [hflag, hnx, identKey, hny, idKeyCmp, sumCmp]
    · have hflag : isNum x ≠ isNum y := by simp [hnx, hny]
      simp [hflag, hnx, identKey, hny, idKeyCmp, sumCmp]
    · have hflag : ¬ (isNum x ≠ isNum y) := by simp [hnx, hny]
      rw [if_neg hflag, if_neg (by simp [hnx]), if_neg (by simp [hnx])]
      have hkeyx : identKey x = Sum.inr x := by simp [identKey, hnx]
      have hkeyy : identKey y = Sum.inr y := by simp [identKey, hny]
      rw [hkeyx, hkeyy]
      show (if strLess x y then Ordering.lt else Ordering.gt) = lexCmp charCmp x y
      by_cases hs : strLess x y
      · rw [if_pos hs, (strLess_iff_lex x y).mp hs]
      · rw [if_neg hs, lexCmp_char_trichotomy x y hxy (by simpa using hs)]

theorem splitDots_ne_nil : ∀ s : List Char, splitDots s ≠ []
  | [] => by simp [splitDots]
  | c :: s => by
    unfold splitDots
    by_cases hc : c == '.'
    · simp [hc]
    · simp only [hc, if_neg, Bool.false_eq_true]
      rcases h : splitDots s with _ | ⟨seg, segs⟩ <;> simp

/-- Inverse of `splitDots`: rejoin segments with `'.'`. -/
def joinDots : List (List Char) → List Char
  | [] => []
  | [seg] => seg
  | seg :: segs => seg ++ '.' :: joinDots segs

theorem joinDots_splitDots : ∀ s : List Char, joinDots (splitDots s) = s
  | [] => by simp [splitDots, joinDots]
  | c :: s => by
    have ih := joinDots_splitDots s
    unfold splitDots
    by_cases hc : c == '.'
    · have hc' : c = '.' := by simpa using hc
      subst hc'
      rcases h : splitDots s with _ | ⟨seg, segs⟩
      · exact absurd h (splitDots_ne_nil s)
      · simp only [hc, if_pos]
        rw [h] at ih
        simp [joinDots, ih]
    · simp only [hc, Bool.false_eq_true, if_neg]
      rcases h : splitDots s with _ | ⟨seg, segs⟩
      · exact absurd h (splitDots_ne_nil s)
      · rw [h] at ih
        rcases segs with _ | ⟨t, ts⟩
        · simp [joinDots] at ih
          simp [joinDots, ih]
        · simp only [joinDots] at ih ⊢
          simp [ih]

theorem splitDots_inj {a b : List Char} (h : splitDots a = splitDots b) : a = b := by
  rw [← joinDots_splitDots a, h, joinDots_splitDots]

theorem cprIdents_eq_lex : ∀ xs ys : List (List Char), xs ≠ ys →
    cprIdents xs ys = lexCmp identCmp xs ys
  | [], [], h => absurd rfl h
  | [], _ :: _, _ => by simp [cprIdents, lexCmp]
  | _ :: _, [], _ => by simp [cprIdents, lexCmp]
  | dx :: xs, dy :: ys, h => by
    by_cases hd : dx = dy
    · subst hd
      have hne : xs ≠ ys := by
        intro hxy
        exact h (by rw [hxy])
      have hid : identCmp dx dx = Ordering.eq := by
        rw [identCmp, if_pos rfl]
      simp only [cprIdents, if_pos rfl, lexCmp, hid]
      rw [cprIdents_eq_lex xs ys hne]
      rfl
    · simp only [cprIdents, if_neg hd, lexCmp]
      have : identCmp dx dy ≠ Ordering.eq := by
        rw [identCmp_eq_key]
        intro hk
        exact hd (identKey_inj ((idKeyCmp_kit.eq_iff _ _).mp hk))
      rw [Ordering.then_left_of_ne_eq this]

theorem lexCmp_congr_map {c : α → α → Ordering} {c' : β → β → Ordering} (f : α → β)
    (h : ∀ a b, c a b = c' (f a) (f b)) :
    ∀ xs ys : List α, lexCmp c xs ys = lexCmp c' (xs.map f) (ys.map f)
  | [], [] => rfl
  | [], _ :: _ => rfl
  | _ :: _, [] => rfl
  | a :: as, b :: bs => by
    simp only [lexCmp, List.map]
    rw [h a b, lexCmp_congr_map f h as bs]

/-- Prerelease strings produced by `parse`: empty, or starting with `'-'`. -/
def PreShape (s : List Char) : Prop :=
  s = [] ∨ ∃ t, s = '-' :: t

/-- The comparison key of a prerelease string: `none` (greatest) for the
empty prerelease, otherwise the keyed identifier list. -/
def preKey (s : List Char) : Option (List ((Nat × List Char) ⊕ List Char)) :=
  match s with
  | [] => none
  | _ :: body => some ((splitDots body).map identKey)

/-- Comparator matching `comparePrerelease` through `preKey`. -/
def preCmp : Option (List ((Nat × List Char) ⊕ List Char)) →
    Option (List ((Nat × List Char) ⊕ List Char)) → Ordering :=
  optLastCmp (lexCmp idKeyCmp)

theorem preCmp_kit : CmpKit preCmp :=
  optLastCmp_kit (lexCmp_kit idKeyCmp_kit)

theorem comparePrerelease_eq_key {x y : List Char} (hx : PreShape x) (hy : PreShape y) :
    comparePrerelease x y = preCmp (preKey x) (preKey y) := by
  rcases hx with rfl | ⟨a, rfl⟩ <;> rcases hy with rfl | ⟨b, rfl⟩
  · rfl
  · rw [comparePrerelease, if_neg (by simp), if_pos rfl]
    rfl
  · rw [comparePrerelease, if_neg (by simp), if_neg (by simp), if_pos rfl]
    rfl
  · by_cases hxy : a = b
    · subst hxy
      rw [comparePrerelease, if_pos rfl, preKey]
      exact ((preCmp_kit.refl _)).symm
    · have hcons : ('-' :: a) ≠ ('-' :: b) := by simp [hxy]
      rw [comparePrerelease, if_neg hcons, if_neg (by simp), if_neg (by simp)]
      have hsplit : splitDots a ≠ splitDots b := fun hs => hxy (splitDots_inj hs)
      show cprIdents (splitDots a) (splitDots b) = preCmp (preKey ('-' :: a)) (preKey ('-' :: b))
      rw [cprIdents_eq_lex _ _ hsplit]
      show lexCmp identCmp (splitDots a) (splitDots b) =
        lexCmp idKeyCmp ((splitDots a).map identKey) ((splitDots b).map identKey)
      exact lexCmp_congr_map identKey identCmp_eq_key _ _

/-- The comparison key of a parsed version. -/
def parsedKey (p : Parsed) :
    (Nat × List Char) × (Nat × List Char) × (Nat × List Char) ×
      Option (List ((Nat × List Char) ⊕ List Char)) :=
  (intKey p.major, intKey p.minor, intKey p.patch, preKey p.prerelease)

/-- Comparator matching `compareParsed` through `parsedKey`. -/
def parsedKeyCmp :
    ((Nat × List Char) × (Nat × List Char) × (Nat × List Char) ×
      Option (List ((Nat × List Char) ⊕ List Char))) →
    ((Nat × List Char) × (Nat × List Char) × (Nat × List Char) ×
      Option (List ((Nat × List Char) ⊕ List Char))) → Ordering :=
  pairCmp intKeyCmp (pairCmp intKeyCmp (pairCmp intKeyCmp preCmp))

theorem parsedKeyCmp_kit : CmpKit parsedKeyCmp :=
  pairCmp_kit intKeyCmp_kit (pairCmp_kit intKeyCmp_kit (pairCmp_kit intKeyCmp_kit preCmp_kit))

theorem compareParsed_eq_key {pv pw : Parsed} (hv : PreShape pv.prerelease)
    (hw : PreShape pw.prerelease) :
    compareParsed pv pw = parsedKeyCmp (parsedKey pv) (parsedKey pw) := by
  rw [compareParsed, compareInt_eq_key, compareInt_eq_key, compareInt_eq_key,
    comparePrerelease_eq_key hv hw]
  rfl

theorem parsePrerelease_shape {v t r : List Char} (h : parsePrerelease v = some (t, r)) :
    ∃ b, t = '-' :: b := by
  unfold parsePrerelease at h
  split at h
  · dsimp only at h
    split at h
    · exact absurd h (by simp)
    · split at h
      · exact absurd h (by simp)
      · simp only [Option.some.injEq, Prod.mk.injEq] at h
        exact ⟨_, h.1.symm⟩
  · exact absurd h (by simp)

theorem parseFinish_shape {major minor patch pre r : List Char} {p : Parsed}
    (h : parseFinish major minor patch pre r = some p) : p.prerelease = pre := by
  unfold parseFinish at h
  split at h
  · split at h
    · exact absurd h (by simp)
    · split at h
      · cases h
        rfl
      · exact absurd h (by simp)
  · cases h
    rfl
  · exact absurd h (by simp)

theorem parseTail_shape {major minor patch : List Char} {r : List Char} {p : Parsed}
    (h : parseTail major minor patch r = some p) : PreShape p.prerelease := by
  unfold parseTail at h
  split at h
  · split at h
    · exact absurd h (by simp)
    · next t r4 heq =>
      right
      obtain ⟨b, rfl⟩ := parsePrerelease_shape heq
      exact ⟨b, by rw [parseFinish_shape h]⟩
  · left
    rw [parseFinish_shape h]

theorem parse_shape {v : List Char} {p : Parsed} (h : parse v = some p) :
    PreShape p.prerelease := by
  unfold parse at h
  split at h
  · split at h
    · exact absurd h (by simp)
    · split at h
      · cases h
        left
        rfl
      · split at h
        · exact absurd h (by simp)
        · split at h
          · cases h
            left
            rfl
          · split at h
            · exact absurd h (by simp)
            · exact parseTail_shape h
          · exact absurd h (by simp)
      · exact absurd h (by simp)
  · exact absurd h (by simp)

/-- The comparison key of a version string: `none` (least) for strings that
do not parse. -/
def vkey (v : String) : Option ((Nat × List Char) × (Nat × List Char) × (Nat × List Char) ×
    Option (List ((Nat × List Char) ⊕ List Char))) :=
  (parse v.data).map parsedKey

/-- Comparator matching `semver.Compare` through `vkey`. -/
def vkeyCmp : Option ((Nat × List Char) × (Nat × List Char) × (Nat × List Char) ×
    Option (List ((Nat × List Char) ⊕ List Char))) →
    Option ((Nat × List Char) × (Nat × List Char) × (Nat × List Char) ×
      Option (List ((Nat × List Char) ⊕ List Char))) → Ordering :=
  optFirstCmp parsedKeyCmp

theorem vkeyCmp_kit : CmpKit vkeyCmp :=
  optFirstCmp_kit parsedKeyCmp_kit

theorem Compare_eq_key (v w : String) : Compare v w = vkeyCmp (vkey v) (vkey w) := by
  rw [Compare, vkey, vkey]
  rcases hv : parse v.data with _ | pv <;> rcases hw : parse w.data with _ | pw <;>
    simp [vkeyCmp, optFirstCmp]
  exact compareParsed_eq_key (parse_shape hv) (parse_shape hw)

theorem Compare_symm (v w : String) : Compare v w = (Compare w v).swap := by
  rw [Compare_eq_key, Compare_eq_key]
  exact vkeyCmp_kit.symm _ _

theorem Compare_le_trans {u v w : String} (h1 : Compare u v ≠ Ordering.gt)
    (h2 : Compare v w ≠ Ordering.gt) : Compare u w ≠ Ordering.gt := by
  rw [Compare_eq_key] at *
  exact vkeyCmp_kit.le_trans h1 h2

theorem Compare_antisymm {v w : String} (h1 : Compare v w ≠ Ordering.gt)
    (h2 : Compare w v ≠ Ordering.gt) : Compare v w = Ordering.eq := by
  rcases h : Compare v w with _ | _ | _
  · exact absurd (by rw [Compare_symm w v, h]; rfl) h2
  · rfl
  · exact absurd h h1

end semver

/-! ## `FlattenVersions` -/

/-- Go `ProjectMeta`. -/
structure ProjectMeta where
  id : String
  name : String
deriving DecidableEq, Repr

/-- Go `ProjectV3Response`.  The `Versions` map (group name to version IDs) is
modelled as an association list; Go map iteration order is arbitrary, and the
claims below quantify over permutations to reflect that. -/
structure ProjectV3Response where
  project : ProjectMeta
  versions : List (String × List String)
deriving DecidableEq, Repr

/-- The `less` closure passed to `sort.Slice` by `FlattenVersions`:
`semver.Compare("v"+allVersions[i], "v"+allVersions[j]) < 0`. -/
def versionLess (a b : String) : Bool :=
  semver.Compare ("v" ++ a) ("v" ++ b) == Ordering.lt

/-- The ordering guaranteed by Go's `sort.Slice` for `versionLess`: in the
sorted output, a pair in order satisfies "not (later < earlier)". -/
def versionRel (a b : String) : Prop :=
  versionLess b a = false

instance : DecidableRel versionRel := fun a b =>
  inferInstanceAs (Decidable (versionLess b a = false))

theorem versionRel_iff {a b : String} :
    versionRel a b ↔ semver.Compare ("v" ++ a) ("v" ++ b) ≠ Ordering.gt := by
  unfold versionRel versionLess
  rw [semver.Compare_symm ("v" ++ b) ("v" ++ a)]
  rcases semver.Compare ("v" ++ a) ("v" ++ b) with _ | _ | _ <;>
    simp [Ordering.swap] <;> decide

/-- Go `(*ProjectV3Response).FlattenVersions`: concatenate the version lists
of every group, then sort with the semver comparator (insertion sort stands
in for Go's `sort.Slice`; any sorted permutation is the same list when the
comparator separates the elements, which is the regime of the claims). -/
def FlattenVersions (p : ProjectV3Response) : List String :=
  List.insertionSort versionRel (p.versions.flatMap Prod.snd)

theorem FlattenVersions_perm (p : ProjectV3Response) :
    (FlattenVersions p).Perm (p.versions.flatMap Prod.snd) :=
  List.perm_insertionSort versionRel _

/-- Two sorted lists that are permutations of each other agree, provided the
relation is antisymmetric on the elements involved. -/
theorem sorted_perm_eq {r : α → α → Prop} :
    ∀ {l₁ l₂ : List α}, (∀ a ∈ l₁, ∀ b ∈ l₁, r a b → r b a → a = b) →
      l₁.Perm l₂ → l₁.Sorted r → l₂.Sorted r → l₁ = l₂
  | [], l₂, _, hp, _, _ => List.Perm.nil_eq hp
  | a :: t₁, l₂, anti, hp, h₁, h₂ => by
    rcases l₂ with _ | ⟨b, t₂⟩
    · exact absurd hp.symm (by simp)
    · have hab : a = b := by
        by_cases h : a = b
        · exact h
        · have ha2 : a ∈ b :: t₂ := hp.mem_iff.mp (by simp)
          have hb1 : b ∈ a :: t₁ := hp.mem_iff.mpr (by simp)
          have hba : r b a := List.rel_of_sorted_cons h₂ a (by
            rcases ha2 with _ | ha2
            · exact absurd rfl h
            · assumption)
          have hab : r a b := List.rel_of_sorted_cons h₁ b (by
            rcases hb1 with _ | hb1
            · exact absurd rfl (fun hh => h hh.symm)
            · assumption)
          exact anti a (by simp) b (by simp [hb1]) hab hba
      subst hab
      have htail : t₁.Perm t₂ := (List.perm_cons a).mp hp
      have anti' : ∀ x ∈ t₁, ∀ y ∈ t₁, r x y → r y x → x = y := by
        intro x hx y hy
        exact anti x (by simp [hx]) y (by simp [hy])
      rw [sorted_perm_eq anti' htail h₁.of_cons h₂.of_cons]

/-! ## The comparator described by the specification (§4.1)

`specLess` is modelled from the spec's words, for comparison against the
comparator the code actually uses: split each identifier into a leading
dot-separated numeric prefix and an optional hyphen suffix; compare the
numeric prefixes component-wise as integers, zero-padding the shorter; on
equal prefixes a suffixed identifier sorts strictly before the unsuffixed
one, and two suffixes compare by plain string comparison. -/

/-- Decimal value of a digit string (spec side). -/
def specDigitsVal (s : List Char) : Nat :=
  s.foldl (fun n c => n * 10 + (c.toNat - '0'.toNat)) 0

/-- Modelled from the spec: split into numeric prefix components and optional
hyphen suffix, e.g. `"1.21.11-rc3"` to `([1, 21, 11], some "rc3")`. -/
def specSplit (v : String) : List Nat × Option (List Char) :=
  ((semver.splitDots (v.data.takeWhile (fun c => c != '-'))).map specDigitsVal,
    match v.data.dropWhile (fun c => c != '-') with
    | [] => none
    | _ :: suf => some suf)

/-- Zero-padded comparison against an exhausted left side (spec side). -/
def padLexZero : List Nat → Ordering
  | [] => Ordering.eq
  | b :: bs => (natCmp 0 b).then (padLexZero bs)

/-- Component-wise comparison of numeric prefixes, zero-padding the shorter
list (spec side). -/
def padLex : List Nat → List Nat → Ordering
  | [], ys => padLexZero ys
  | a :: as, [] => (natCmp a 0).then (padLex as [])
  | a :: as, b :: bs => (natCmp a b).then (padLex as bs)

/-- Modelled from the spec: the §4.1 "numeric prefix + suffix" strict
comparator. -/
def specLess (v w : String) : Bool :=
  match padLex (specSplit v).1 (specSplit w).1 with
  | Ordering.lt => true
  | Ordering.gt => false
  | Ordering.eq =>
    match (specSplit v).2, (specSplit w).2 with
    | some _, none => true
    | none, some _ => false
    | none, none => false
    | some s1, some s2 => semver.strLess s1 s2

/-! ## Sortedness of `insertionSort` under a transitive, total relation -/

theorem versionRel_trans {a b c : String} (hab : versionRel a b) (hbc : versionRel b c) :
    versionRel a c :=
  versionRel_iff.mpr (semver.Compare_le_trans (versionRel_iff.mp hab) (versionRel_iff.mp hbc))

theorem versionRel_total (a b : String) : versionRel a b ∨ versionRel b a := by
  rcases semver.vkeyCmp_kit.total (semver.vkey ("v" ++ a)) (semver.vkey ("v" ++ b)) with h | h
  · exact Or.inl (versionRel_iff.mpr (by rw [semver.Compare_eq_key]; exact h))
  · exact Or.inr (versionRel_iff.mpr (by rw [semver.Compare_eq_key]; exact h))

theorem sorted_orderedInsert_of {r : α → α → Prop} [DecidableRel r]
    (trans : ∀ a b c : α, r a b → r b c → r a c) (total : ∀ a b : α, r a b ∨ r b a) (a : α) :
    ∀ l : List α, l.Sorted r → (l.orderedInsert r a).Sorted r
  | [], _ => List.sorted_singleton a
  | b :: l, h => by
    by_cases h' : r a b
    · rw [List.orderedInsert, if_pos h', List.sorted_cons]
      refine ⟨?_, h⟩
      intro c hc
      rcases List.mem_cons.mp hc with rfl | hc
      · exact h'
      · exact trans _ _ _ h' (List.rel_of_sorted_cons h c hc)
    · rw [List.orderedInsert, if_neg h', List.sorted_cons]
      refine ⟨?_, sorted_orderedInsert_of trans total a l h.of_cons⟩
      intro c hc
      rcases (List.mem_orderedInsert r).mp hc with hca | hc
      · rw [hca]
        exact (total a b).resolve_left h'
      · exact List.rel_of_sorted_cons h c hc

theorem sorted_insertionSort_of {r : α → α → Prop} [DecidableRel r]
    (trans : ∀ a b c : α, r a b → r b c → r a c) (total : ∀ a b : α, r a b ∨ r b a) :
    ∀ l : List α, (List.insertionSort r l).Sorted r
  | [] => List.sorted_nil
  | a :: l => sorted_orderedInsert_of trans total a _ (sorted_insertionSort_of trans total l)

theorem FlattenVersions_sorted (p : ProjectV3Response) :
    (FlattenVersions p).Sorted versionRel :=
  @sorted_insertionSort_of String versionRel _ (fun _ _ _ h1 h2 => versionRel_trans h1 h2)
    versionRel_total _

/-! ## Claims on `FlattenVersions` (C1, C5, C9) -/

/-- C1 (counterexample): on the groups `{"g": ["1.0.0-10", "1.0.0-2"]}`,
`FlattenVersions` returns `["1.0.0-2", "1.0.0-10"]` (semver compares the
numeric prerelease identifiers `10` and `2` as integers), which is strictly
descending under the comparator described by the spec (plain string
comparison of the suffixes puts `"10"` before `"2"`), so the output is not
ascending under the spec's comparator.  Moreover, on two distinct
identifiers that tie under the semver comparator (two non-semver strings),
the output follows the within-group input order, so unqualified
order-independence also fails. -/
theorem FlattenVersions_spec_order_counterexample :
    FlattenVersions ⟨⟨"paper", "Paper"⟩, [("g", ["1.0.0-10", "1.0.0-2"])]⟩ =
      ["1.0.0-2", "1.0.0-10"] ∧
    specLess "1.0.0-10" "1.0.0-2" = true ∧
    specLess "1.0.0-2" "1.0.0-10" = false ∧
    FlattenVersions ⟨⟨"paper", "Paper"⟩, [("g", ["foo", "bar"])]⟩ = ["foo", "bar"] ∧
    FlattenVersions ⟨⟨"paper", "Paper"⟩, [("g", ["bar", "foo"])]⟩ = ["bar", "foo"] ∧
    semver.Compare "vfoo" "vbar" = Ordering.eq := by
  decide

/-- C1 (amended): `FlattenVersions` returns a permutation of the identifiers
of all groups, sorted ascending under the comparator actually used —
`semver.Compare` on the "v"-prefixed identifiers — and its output does not
depend on group order or within-group order provided no two distinct
identifiers compare equal under that comparator. -/
theorem FlattenVersions_ordering (p q : ProjectV3Response)
    (hperm : (p.versions.flatMap Prod.snd).Perm (q.versions.flatMap Prod.snd))
    (hsep : ∀ a ∈ p.versions.flatMap Prod.snd, ∀ b ∈ p.versions.flatMap Prod.snd,
      semver.Compare ("v" ++ a) ("v" ++ b) = Ordering.eq → a = b) :
    (FlattenVersions p).Perm (p.versions.flatMap Prod.snd) ∧
    (FlattenVersions p).Sorted versionRel ∧
    FlattenVersions p = FlattenVersions q := by
  refine ⟨FlattenVersions_perm p, FlattenVersions_sorted p, ?_⟩
  refine sorted_perm_eq ?_ ((FlattenVersions_perm p).trans
    (hperm.trans (FlattenVersions_perm q).symm)) (FlattenVersions_sorted p)
    (FlattenVersions_sorted q)
  intro a ha b hb hab hba
  exact hsep a ((FlattenVersions_perm p).subset ha) b ((FlattenVersions_perm p).subset hb)
    (semver.Compare_antisymm (versionRel_iff.mp hab) (versionRel_iff.mp hba))

/-- C1 (witness): the ordering theorem applied to the version groups
`{"1.21": [...], "1.7": [...]}` and a reshuffled copy of them. -/
theorem FlattenVersions_ordering_witness :
    (FlattenVersions ⟨⟨"paper", "Paper"⟩,
        [("1.21", ["1.21.11", "1.21.11-rc3", "1.21.10"]), ("1.7", ["1.7.10"])]⟩).Perm
      ([("1.21", ["1.21.11", "1.21.11-rc3", "1.21.10"]), ("1.7", ["1.7.10"])].flatMap
        Prod.snd) ∧
    (FlattenVersions ⟨⟨"paper", "Paper"⟩,
        [("1.21", ["1.21.11", "1.21.11-rc3", "1.21.10"]), ("1.7", ["1.7.10"])]⟩).Sorted
      versionRel ∧
    FlattenVersions ⟨⟨"paper", "Paper"⟩,
        [("1.21", ["1.21.11", "1.21.11-rc3", "1.21.10"]), ("1.7", ["1.7.10"])]⟩ =
      FlattenVersions ⟨⟨"paper", "Paper"⟩,
        [("1.7", ["1.7.10"]), ("1.21", ["1.21.10", "1.21.11", "1.21.11-rc3"])]⟩ :=
  FlattenVersions_ordering
    ⟨⟨"paper", "Paper"⟩, [("1.21", ["1.21.11", "1.21.11-rc3", "1.21.10"]), ("1.7", ["1.7.10"])]⟩
    ⟨⟨"paper", "Paper"⟩, [("1.7", ["1.7.10"]), ("1.21", ["1.21.10", "1.21.11", "1.21.11-rc3"])]⟩
    (by decide) (by decide)

/-- C5: the regression groups flatten to exactly
`["1.7.10", "1.21.10", "1.21.11-rc3", "1.21.11"]`, whatever the iteration
order of the groups and of the lists inside them. -/
theorem FlattenVersions_regression (p : ProjectV3Response)
    (hperm : (p.versions.flatMap Prod.snd).Perm
      ["1.21.11", "1.21.11-rc3", "1.21.10", "1.7.10"]) :
    FlattenVersions p = ["1.7.10", "1.21.10", "1.21.11-rc3", "1.21.11"] := by
  refine sorted_perm_eq ?_ ((FlattenVersions_perm p).trans (hperm.trans (by decide)))
    (FlattenVersions_sorted p) (by decide)
  have hanti : ∀ a ∈ (["1.21.11", "1.21.11-rc3", "1.21.10", "1.7.10"] : List String),
      ∀ b ∈ (["1.21.11", "1.21.11-rc3", "1.21.10", "1.7.10"] : List String),
      versionRel a b → versionRel b a → a = b := by decide
  intro a ha b hb hab hba
  exact hanti a (hperm.subset ((FlattenVersions_perm p).subset ha))
    b (hperm.subset ((FlattenVersions_perm p).subset hb)) hab hba

/-- C5 (witness): the regression theorem applied to the literal groups of the
claim. -/
theorem FlattenVersions_regression_witness :
    FlattenVersions ⟨⟨"paper", "Paper"⟩,
        [("1.21", ["1.21.11", "1.21.11-rc3", "1.21.10"]), ("1.7", ["1.7.10"])]⟩ =
      ["1.7.10", "1.21.10", "1.21.11-rc3", "1.21.11"] :=
  FlattenVersions_regression
    ⟨⟨"paper", "Paper"⟩, [("1.21", ["1.21.11", "1.21.11-rc3", "1.21.10"]), ("1.7", ["1.7.10"])]⟩
    (by decide)

/-- C9: re-flattening the output of `FlattenVersions` (wrapped as a single
version group) returns the identical sequence: the comparator is a pure
function and sorting an already-sorted list changes nothing. -/
theorem FlattenVersions_idempotent (p : ProjectV3Response) (meta : ProjectMeta) (g : String) :
    FlattenVersions ⟨meta, [(g, FlattenVersions p)]⟩ = FlattenVersions p := by
  show List.insertionSort versionRel ([(g, FlattenVersions p)].flatMap Prod.snd) =
    FlattenVersions p
  rw [show ([(g, FlattenVersions p)].flatMap Prod.snd) = FlattenVersions p by simp]
  exact List.Sorted.insertionSort_eq (FlattenVersions_sorted p)

/-! ## The API client model

HTTP requests, JSON decoding and filesystem calls are external effects; each
operation below takes the outcome of those effects (the decoded payload, or a
failure) as an explicit argument and performs the computation the Go code
performs on it.  `Except Unit` stands for Go's `(value, error)` results where
only success/failure matters. -/

/-- Go `Client` (the `HTTPClient`/timeout field is transport configuration
with no computational content and is omitted). -/
structure Client where
  baseURL : String
  limit : Int
  channel : String
deriving DecidableEq, Repr

/-- The item-limit truncation that `GetProjects`, `GetVersions`, `GetVersion`
and `GetBuilds` each apply verbatim to a decoded list:
`if c.Limit > 0 && len(xs) > c.Limit { xs = xs[len(xs)-c.Limit:] }`. -/
def applyLimit (limit : Int) (l : List α) : List α :=
  if 0 < limit ∧ limit < (l.length : Int) then l.drop (l.length - limit.toNat) else l

/-- Go `ProjectV3Info` (an entry of the projects list). -/
structure ProjectV3Info where
  project : ProjectMeta
  versions : List (String × List String)
deriving DecidableEq, Repr

/-- Go `VersionMeta` (the `Support`/`Java` metadata carries no behaviour used
by the claims and is omitted). -/
structure VersionMeta where
  id : String
deriving DecidableEq, Repr

/-- Go `VersionV3Response`. -/
structure VersionV3Response where
  version : VersionMeta
  builds : List Int
deriving DecidableEq, Repr

/-- Go `ChecksumsV3`. -/
structure ChecksumsV3 where
  sha256 : String
deriving DecidableEq, Repr

/-- Go `DownloadV3`. -/
structure DownloadV3 where
  name : String
  url : String
  checksums : ChecksumsV3
  size : Int
deriving DecidableEq, Repr

/-- Go `BuildV3Response` (`Time` and `Commits` are never read by the modelled
operations and are omitted).  The `Downloads` map is an association list. -/
structure BuildV3Response where
  id : Int
  channel : String
  downloads : List (String × DownloadV3)
deriving DecidableEq, Repr

/-- Go `(*BuildV3Response).GetDownloadURL`: the `"server:default"` entry if
present, else the first entry of the (unordered) map, else `""`. -/
def GetDownloadURL (b : BuildV3Response) : String :=
  match b.downloads.lookup "server:default" with
  | some d => d.url
  | none =>
    match b.downloads with
    | (_, d) :: _ => d.url
    | [] => ""

/-- Go `(*BuildV3Response).GetDownloadName`. -/
def GetDownloadName (b : BuildV3Response) : String :=
  match b.downloads.lookup "server:default" with
  | some d => d.name
  | none =>
    match b.downloads with
    | (_, d) :: _ => d.name
    | [] => ""

/-- Go `(*BuildV3Response).GetDownloadSHA256`. -/
def GetDownloadSHA256 (b : BuildV3Response) : String :=
  match b.downloads.lookup "server:default" with
  | some d => d.checksums.sha256
  | none =>
    match b.downloads with
    | (_, d) :: _ => d.checksums.sha256
    | [] => ""

/-- Go `(*Client).GetProjects`, applied to the decoded projects list. -/
def GetProjects (c : Client) (decoded : List ProjectV3Info) : List ProjectV3Info :=
  applyLimit c.limit decoded

/-- Go `(*Client).GetVersions`, applied to the decoded versions list. -/
def GetVersions (c : Client) (decoded : List VersionV3Response) : List VersionV3Response :=
  applyLimit c.limit decoded

/-- Go `(*Client).GetVersion`, applied to the decoded version: the limit is
applied to the builds list inside the response. -/
def GetVersion (c : Client) (decoded : VersionV3Response) : VersionV3Response :=
  { decoded with builds := applyLimit c.limit decoded.builds }

/-- Go `(*Client).GetBuilds`: the channel filter is part of the request URL
(server side), so the argument is the server's response for the requested
channels; on success the limit truncation is applied. -/
def GetBuilds (c : Client) (serverResp : Except Unit (List BuildV3Response)) :
    Except Unit (List BuildV3Response) :=
  serverResp.map (applyLimit c.limit)

/-- The max-ID scan in Go `GetLatestBuildV3` (`latest := &builds[0]; if
builds[i].ID > latest.ID { latest = &builds[i] }`). -/
def maxByID (b : BuildV3Response) (rest : List BuildV3Response) : BuildV3Response :=
  rest.foldl (fun latest x => if x.id > latest.id then x else latest) b

/-- Go `(*Client).GetLatestBuildV3`: with a channel filter set, query
`/builds` for that channel and take the build with the highest ID (failing on
an empty result); otherwise use the `/builds/latest` shortcut response. -/
def GetLatestBuildV3 (c : Client) (channelResp : Except Unit (List BuildV3Response))
    (latestResp : Except Unit BuildV3Response) : Except Unit BuildV3Response :=
  if c.channel ≠ "" then
    match GetBuilds c channelResp with
    | Except.error e => Except.error e
    | Except.ok builds =>
      match builds with
      | [] => Except.error ()
      | b :: rest => Except.ok (maxByID b rest)
  else latestResp

/-- Go `(*Client).FindPromotedBuild`: take `builds[len(builds)-1].ID` from the
RECOMMENDED query when it succeeds with a non-empty list, else from the STABLE
query, else fall back to `GetLatestBuildV3`. -/
def FindPromotedBuild (c : Client)
    (recommendedResp stableResp channelResp : Except Unit (List BuildV3Response))
    (latestResp : Except Unit BuildV3Response) : Except Unit Int :=
  match GetBuilds c recommendedResp with
  | Except.ok (b :: bs) => Except.ok (((b :: bs).getLast (List.cons_ne_nil b bs)).id)
  | _ =>
    match GetBuilds c stableResp with
    | Except.ok (b :: bs) => Except.ok (((b :: bs).getLast (List.cons_ne_nil b bs)).id)
    | _ =>
      match GetLatestBuildV3 c channelResp latestResp with
      | Except.error e => Except.error e
      | Except.ok b => Except.ok b.id

/-! ## SHA-256 and hex encoding (Go `crypto/sha256`, `encoding/hex`)

Bytes are `Nat`s below 256 and 32-bit words are `Nat`s reduced modulo
`2 ^ 32` at every arithmetic step (FIPS 180-4, as implemented by Go's
`crypto/sha256`). -/

/-- Logical right shift of a 32-bit word. -/
def shr32 (n x : Nat) : Nat :=
  x / 2 ^ n

/-- Right rotation of a 32-bit word. -/
def rotr32 (n x : Nat) : Nat :=
  (x / 2 ^ n + (x % 2 ^ n) * 2 ^ (32 - n)) % 4294967296

/-- Bitwise complement of a 32-bit word. -/
def not32 (x : Nat) : Nat :=
  x ^^^ 4294967295

/-- SHA-256 `Ch(e,f,g)`. -/
def chFn (e f g : Nat) : Nat :=
  (e &&& f) ^^^ (not32 e &&& g)

/-- SHA-256 `Maj(a,b,c)`. -/
def majFn (a b c : Nat) : Nat :=
  (a &&& b) ^^^ (a &&& c) ^^^ (b &&& c)

/-- SHA-256 Σ₀. -/
def bsig0 (x : Nat) : Nat :=
  rotr32 2 x ^^^ rotr32 13 x ^^^ rotr32 22 x

/-- SHA-256 Σ₁. -/
def bsig1 (x : Nat) : Nat :=
  rotr32 6 x ^^^ rotr32 11 x ^^^ rotr32 25 x

/-- SHA-256 σ₀. -/
def ssig0 (x : Nat) : Nat :=
  rotr32 7 x ^^^ rotr32 18 x ^^^ shr32 3 x

/-- SHA-256 σ₁. -/
def ssig1 (x : Nat) : Nat :=
  rotr32 17 x ^^^ rotr32 19 x ^^^ shr32 10 x

/-- The SHA-256 round constants (the same 64 words as Go's `_K` table,
written in decimal). -/
def sha256K : List Nat :=
  [1116352408, 1899447441, 3049323471, 3921009573, 961987163,
   1508970993, 2453635748, 2870763221, 3624381080, 310598401,
   607225278, 1426881987, 1925078388, 2162078206, 2614888103,
   3248222580, 3835390401, 4022224774, 264347078, 604807628,
   770255983, 1249150122, 1555081692, 1996064986, 2554220882,
   2821834349, 2952996808, 3210313671, 3336571891, 3584528711,
   113926993, 338241895, 666307205, 773529912, 1294757372,
   1396182291, 1695183700, 1986661051, 2177026350, 2456956037,
   2730485921, 2820302411, 3259730800, 3345764771, 3516065817,
   3600352804, 4094571909, 275423344, 430227734, 506948616,
   659060556, 883997877, 958139571, 1322822218, 1537002063,
   1747873779, 1955562222, 2024104815, 2227730452, 2361852424,
   2428436474, 2756734187, 3204031479, 3329325298]

/-- The eight 32-bit words of the hash state. -/
structure Sha256State where
  h0 : Nat
  h1 : Nat
  h2 : Nat
  h3 : Nat
  h4 : Nat
  h5 : Nat
  h6 : Nat
  h7 : Nat
deriving DecidableEq, Repr

/-- The SHA-256 initial hash value (Go's `init0…init7`, in decimal). -/
def sha256Init : Sha256State :=
  ⟨1779033703, 3144134277, 1013904242, 2773480762, 1359893119, 2600822924, 528734635,
   1541459225⟩

/-- Pack bytes into big-endian 32-bit words. -/
def bytesToWords : List Nat → List Nat
  | b0 :: b1 :: b2 :: b3 :: rest =>
    (((b0 * 256 + b1) * 256 + b2) * 256 + b3) :: bytesToWords rest
  | _ => []

/-- Extend the sixteen chunk words to the 64-entry message schedule. -/
def extendW (w : List Nat) : List Nat :=
  (List.range 48).foldl
    (fun acc _ =>
      let n := acc.length
      acc ++ [(ssig1 (acc.getD (n - 2) 0) + acc.getD (n - 7) 0 + ssig0 (acc.getD (n - 15) 0) +
        acc.getD (n - 16) 0) % 4294967296])
    w

/-- One SHA-256 compression round on the working registers. -/
def sha256Round (regs : Nat × Nat × Nat × Nat × Nat × Nat × Nat × Nat) (wk : Nat × Nat) :
    Nat × Nat × Nat × Nat × Nat × Nat × Nat × Nat :=
  match regs, wk with
  | (a, b, c, d, e, f, g, hh), (w, k) =>
    let t1 := (hh + bsig1 e + chFn e f g + k + w) % 4294967296
    let t2 := (bsig0 a + majFn a b c) % 4294967296
    ((t1 + t2) % 4294967296, a, b, c, (d + t1) % 4294967296, e, f, g)

/-- Compress one 64-byte chunk into the state. -/
def compressChunk (st : Sha256State) (chunk : List Nat) : Sha256State :=
  let w := extendW (bytesToWords chunk)
  match (w.zip sha256K).foldl sha256Round (st.h0, st.h1, st.h2, st.h3, st.h4, st.h5, st.h6, st.h7)
    with
  | (a, b, c, d, e, f, g, hh) =>
    ⟨(st.h0 + a) % 4294967296, (st.h1 + b) % 4294967296, (st.h2 + c) % 4294967296,
     (st.h3 + d) % 4294967296, (st.h4 + e) % 4294967296, (st.h5 + f) % 4294967296,
     (st.h6 + g) % 4294967296, (st.h7 + hh) % 4294967296⟩

/-- Compress the padded message 64 bytes at a time (the fuel argument bounds
the number of steps by the message length). -/
def compressBlocks : Nat → Sha256State → List Nat → Sha256State
  | 0, st, _ => st
  | _ + 1, st, [] => st
  | n + 1, st, l => compressBlocks n (compressChunk st (l.take 64)) (l.drop 64)

/-- The eight big-endian length bytes of the padding. -/
def lenBytes64 (n : Nat) : List Nat :=
  [n / 2 ^ 56 % 256, n / 2 ^ 48 % 256, n / 2 ^ 40 % 256, n / 2 ^ 32 % 256, n / 2 ^ 24 % 256,
   n / 2 ^ 16 % 256, n / 2 ^ 8 % 256, n % 256]

/-- SHA-256 padding: `0x80`, zeros to 56 mod 64, then the bit length. -/
def sha256pad (msg : List Nat) : List Nat :=
  msg ++ 0x80 :: (List.replicate ((64 - ((msg.length + 9) % 64)) % 64) 0 ++
    lenBytes64 (msg.length * 8))

/-- The four big-endian bytes of a 32-bit word. -/
def wordBytes (w : Nat) : List Nat :=
  [w / 2 ^ 24 % 256, w / 2 ^ 16 % 256, w / 2 ^ 8 % 256, w % 256]

/-- SHA-256 of a byte sequence (Go `sha256.New` / `Sum`). -/
def sha256 (msg : List Nat) : List Nat :=
  let padded := sha256pad msg
  let st := compressBlocks padded.length sha256Init padded
  wordBytes st.h0 ++ wordBytes st.h1 ++ wordBytes st.h2 ++ wordBytes st.h3 ++ wordBytes st.h4 ++
    wordBytes st.h5 ++ wordBytes st.h6 ++ wordBytes st.h7

/-- A lowercase hex digit (Go `encoding/hex` alphabet). -/
def hexDigitChar (n : Nat) : Char :=
  if n < 10 then Char.ofNat (48 + n) else Char.ofNat (87 + n)

/-- Go `hex.EncodeToString`: two lowercase hex digits per byte. -/
def hexEncodeToString (bytes : List Nat) : String :=
  ⟨bytes.flatMap (fun b => [hexDigitChar (b / 16 % 16), hexDigitChar (b % 16)])⟩

/-! ## `DownloadFile` -/

/-- Go `DownloadResult`. -/
structure DownloadResult where
  filename : String
  expectedSHA256 : String
  actualSHA256 : String
  valid : Bool
deriving DecidableEq, Repr

/-- The distinct failure exits of `DownloadFile`, in source order. -/
inductive DlError where
  | getBuildFailed
  | noDownloadURL
  | downloadFailed
  | mkdirFailed
  | createFailed
  | copyFailed
  | shaMismatch
deriving DecidableEq, Repr

/-- Go `(*Client).DownloadFile`, with every external effect an argument:
the `GetBuild` result, whether opening the byte stream succeeded, whether
`os.MkdirAll` and `os.Create` succeeded, and the result of the streaming copy
(the copied bytes on success).  Returns the Go `(*DownloadResult, error)`
pair. -/
def DownloadFile (getBuildResult : Except Unit BuildV3Response) (streamOk mkdirOk createOk : Bool)
    (copyResult : Except Unit (List Nat)) (destPath : String) :
    Option DownloadResult × Option DlError :=
  match getBuildResult with
  | Except.error _ => (none, some DlError.getBuildFailed)
  | Except.ok buildInfo =>
    let downloadURL := GetDownloadURL buildInfo
    if downloadURL = "" then (none, some DlError.noDownloadURL)
    else
      let expectedSHA256 := GetDownloadSHA256 buildInfo
      if streamOk = false then (none, some DlError.downloadFailed)
      else if mkdirOk = false then (none, some DlError.mkdirFailed)
      else if createOk = false then (none, some DlError.createFailed)
      else
        match copyResult with
        | Except.error _ => (none, some DlError.copyFailed)
        | Except.ok data =>
          let actualSHA256 := hexEncodeToString (sha256 data)
          let valid := actualSHA256 == expectedSHA256
          let result : DownloadResult := ⟨destPath, expectedSHA256, actualSHA256, valid⟩
          if !valid && expectedSHA256 != "" then (some result, some DlError.shaMismatch)
          else (some result, none)

/-! ## `isSnapshotOrPreRelease` and `GetRecommendedVersion` -/

/-- Go `strings.ToLower` restricted to ASCII (the characters the version
identifiers and the three patterns draw from). -/
def asciiToLower (c : Char) : Char :=
  if 'A' ≤ c ∧ c ≤ 'Z' then Char.ofNat (c.toNat + 32) else c

/-- Go `strings.Contains`: scan for the pattern as a prefix of each suffix. -/
def hasSubstr (s pat : List Char) : Bool :=
  if pat.isPrefixOf s then true
  else
    match s with
    | [] => false
    | _ :: t => hasSubstr t pat

/-- Go `isSnapshotOrPreRelease` (the current, v3 implementation): the
lowercased identifier contains `"snapshot"`, `"-pre"` or `"-rc"`. -/
def isSnapshotOrPreRelease (version : String) : Bool :=
  let lower := version.data.map asciiToLower
  hasSubstr lower "snapshot".data || hasSubstr lower "-pre".data || hasSubstr lower "-rc".data

/-- The legacy v2 `contains` helper: despite its name it compares `substr`
against the final `len(substr)` characters of `s` only. -/
def containsV2 (s substr : List Char) : Bool :=
  decide (substr.length ≤ s.length) && (s.drop (s.length - substr.length) == substr)

/-- The legacy v2 `isSnapshotOrPreRelease`: case-sensitive `"SNAPSHOT"` or
`"pre"` via the suffix-only `contains`. -/
def isSnapshotOrPreReleaseV2 (version : String) : Bool :=
  containsV2 version.data "SNAPSHOT".data || containsV2 version.data "pre".data

/-- The scan of Go `GetRecommendedVersion` from the end of the flattened
list: the first (newest) version that is not a snapshot or prerelease. -/
def findStableFromEnd (versions : List String) : Option String :=
  versions.reverse.find? (fun v => !(isSnapshotOrPreRelease v))

/-- Go `(*Client).GetRecommendedVersion`, applied to the decoded project:
flatten, fail on an empty result, walk from newest to oldest for a
non-prerelease version, and fall back to the newest version. -/
def GetRecommendedVersion (p : ProjectV3Response) : Except Unit String :=
  let versions := FlattenVersions p
  if h : versions = [] then Except.error ()
  else
    match findStableFromEnd versions with
    | some v => Except.ok v
    | none => Except.ok (versions.getLast h)

/-! ## Facts about the hex digest -/

theorem hexChars_length : ∀ bs : List Nat,
    (bs.flatMap (fun b => [hexDigitChar (b / 16 % 16), hexDigitChar (b % 16)])).length =
      2 * bs.length
  | [] => rfl
  | b :: t => by
    simp [List.flatMap_cons, hexChars_length t]
    omega

theorem hexEncodeToString_length (bs : List Nat) :
    (hexEncodeToString bs).length = 2 * bs.length :=
  hexChars_length bs

theorem sha256_length (msg : List Nat) : (sha256 msg).length = 32 := by
  unfold sha256 wordBytes
  simp

theorem sha256hex_ne_empty (data : List Nat) : hexEncodeToString (sha256 data) ≠ "" := by
  intro h
  have hlen := congrArg String.length h
  rw [hexEncodeToString_length, sha256_length] at hlen
  simp at hlen

/-! ## Claims on `DownloadFile` (C3, C6, C8) -/

/-- C3: when the copy completes and the computed digest differs from a
non-empty expected checksum, `DownloadFile` returns the mismatch error
together with a result whose `Valid` flag is false and whose expected and
actual checksums are both populated (the actual digest always has 64
characters). -/
theorem DownloadFile_mismatch (b : BuildV3Response) (data : List Nat) (destPath : String)
    (hurl : GetDownloadURL b ≠ "")
    (hexp : GetDownloadSHA256 b ≠ "")
    (hne : hexEncodeToString (sha256 data) ≠ GetDownloadSHA256 b) :
    DownloadFile (Except.ok b) true true true (Except.ok data) destPath =
      (some ⟨destPath, GetDownloadSHA256 b, hexEncodeToString (sha256 data), false⟩,
        some DlError.shaMismatch) ∧
    (hexEncodeToString (sha256 data)).length = 64 := by
  constructor
  · have hvalid : (hexEncodeToString (sha256 data) == GetDownloadSHA256 b) = false := by
      simp [hne]
    have hne' : (GetDownloadSHA256 b != "") = true := by
      simp [hexp]
    simp [DownloadFile, hurl, hvalid, hne']
  · rw [hexEncodeToString_length, sha256_length]

/-- C3 (witness): a concrete build whose declared checksum `"ff"` cannot
match the 64-character digest of the empty stream. -/
theorem DownloadFile_mismatch_witness :
    DownloadFile
      (Except.ok ⟨7, "STABLE", [("server:default", ⟨"paper.jar", "https://x/paper.jar", ⟨"ff"⟩, 1⟩)]⟩)
      true true true (Except.ok []) "srv/paper.jar" =
      (some ⟨"srv/paper.jar",
        GetDownloadSHA256
          ⟨7, "STABLE", [("server:default", ⟨"paper.jar", "https://x/paper.jar", ⟨"ff"⟩, 1⟩)]⟩,
        hexEncodeToString (sha256 []), false⟩, some DlError.shaMismatch) ∧
    (hexEncodeToString (sha256 [])).length = 64 :=
  DownloadFile_mismatch
    ⟨7, "STABLE", [("server:default", ⟨"paper.jar", "https://x/paper.jar", ⟨"ff"⟩, 1⟩)]⟩
    [] "srv/paper.jar" (by decide) (by decide)
    (by
      intro h
      have hlen := congrArg String.length h
      rw [hexEncodeToString_length, sha256_length] at hlen
      simp [GetDownloadSHA256] at hlen
      exact absurd hlen (by decide))

/-- C6 (counterexample): with no expected checksum (empty string) the copy
completes with no error, but the returned `DownloadResult` reports
`Valid = false`, not valid: the 64-character actual digest never equals the
empty expected string. -/
theorem DownloadFile_emptyChecksum_counterexample :
    (DownloadFile
      (Except.ok ⟨7, "STABLE", [("server:default", ⟨"paper.jar", "https://x/paper.jar", ⟨""⟩, 1⟩)]⟩)
      true true true (Except.ok []) "srv/paper.jar").2 = none ∧
    ((DownloadFile
      (Except.ok ⟨7, "STABLE", [("server:default", ⟨"paper.jar", "https://x/paper.jar", ⟨""⟩, 1⟩)]⟩)
      true true true (Except.ok []) "srv/paper.jar").1.map DownloadResult.valid) = some false := by
  have hvalid : (hexEncodeToString (sha256 []) == ("" : String)) = false := by
    simp [sha256hex_ne_empty]
  constructor <;>
    simp [DownloadFile, GetDownloadURL, GetDownloadSHA256, List.lookup, hvalid]

/-- C6 (amended): when the metadata source provides no expected checksum,
`DownloadFile` returns no error, but the result's `Valid` flag is false
(the actual digest, 64 hex characters, never equals the empty expected
checksum); "treated as valid" holds only in the sense that no error is
signalled. -/
theorem DownloadFile_emptyChecksum (b : BuildV3Response) (data : List Nat) (destPath : String)
    (hurl : GetDownloadURL b ≠ "")
    (hexp : GetDownloadSHA256 b = "") :
    DownloadFile (Except.ok b) true true true (Except.ok data) destPath =
      (some ⟨destPath, "", hexEncodeToString (sha256 data), false⟩, none) := by
  have hvalid : (hexEncodeToString (sha256 data) == GetDownloadSHA256 b) = false := by
    rw [hexp]
    simp [sha256hex_ne_empty]
  simp [DownloadFile, hurl, hvalid, hexp]
  exact sha256hex_ne_empty data

/-- C6 (witness): the amended theorem at a concrete build with an empty
declared checksum. -/
theorem DownloadFile_emptyChecksum_witness :
    DownloadFile
      (Except.ok ⟨7, "STABLE", [("server:default", ⟨"paper.jar", "https://x/paper.jar", ⟨""⟩, 1⟩)]⟩)
      true true true (Except.ok [1, 2, 3]) "srv/paper.jar" =
      (some ⟨"srv/paper.jar", "", hexEncodeToString (sha256 [1, 2, 3]), false⟩, none) :=
  DownloadFile_emptyChecksum
    ⟨7, "STABLE", [("server:default", ⟨"paper.jar", "https://x/paper.jar", ⟨""⟩, 1⟩)]⟩
    [1, 2, 3] "srv/paper.jar" (by decide) (by decide)

/-- C8: whenever the byte stream cannot be opened, the destination directory
or file cannot be created, or the streaming copy fails, `DownloadFile`
returns an error and no `DownloadResult` — unlike a completed-but-mismatched
download, which carries one. -/
theorem DownloadFile_failure_no_result (getBuildResult : Except Unit BuildV3Response)
    (streamOk mkdirOk createOk : Bool) (copyResult : Except Unit (List Nat)) (destPath : String)
    (hfail : streamOk = false ∨ mkdirOk = false ∨ createOk = false ∨
      copyResult = Except.error ()) :
    (DownloadFile getBuildResult streamOk mkdirOk createOk copyResult destPath).1 = none ∧
    (DownloadFile getBuildResult streamOk mkdirOk createOk copyResult destPath).2 ≠ none := by
  rcases getBuildResult with _ | b
  · simp [DownloadFile]
  · by_cases hurl : GetDownloadURL b = ""
    · simp [DownloadFile, hurl]
    · cases streamOk <;> cases mkdirOk <;> cases createOk <;>
        rcases copyResult with ⟨⟩ | data <;> simp_all [DownloadFile]

/-- C8 (witness): a failing copy yields an error and no result. -/
theorem DownloadFile_failure_no_result_witness :
    (DownloadFile
      (Except.ok ⟨7, "STABLE", [("server:default", ⟨"paper.jar", "https://x/paper.jar", ⟨"ff"⟩, 1⟩)]⟩)
      true true true (Except.error ()) "srv/paper.jar").1 = none ∧
    (DownloadFile
      (Except.ok ⟨7, "STABLE", [("server:default", ⟨"paper.jar", "https://x/paper.jar", ⟨"ff"⟩, 1⟩)]⟩)
      true true true (Except.error ()) "srv/paper.jar").2 ≠ none :=
  DownloadFile_failure_no_result _ true true true (Except.error ()) "srv/paper.jar"
    (Or.inr (Or.inr (Or.inr rfl)))

/-! ## Claim on the item limit (C10) -/

theorem applyLimit_spec (limit : Int) (l : List α) :
    (¬ (0 < limit ∧ limit < (l.length : Int)) → applyLimit limit l = l) ∧
    (0 < limit → limit < (l.length : Int) →
      applyLimit limit l = l.drop (l.length - limit.toNat) ∧
      applyLimit limit l <:+ l ∧
      ((applyLimit limit l).length : Int) = limit) := by
  constructor
  · intro h
    rw [applyLimit, if_neg h]
  · intro h1 h2
    rw [applyLimit, if_pos ⟨h1, h2⟩]
    refine ⟨rfl, List.drop_suffix _ _, ?_⟩
    rw [List.length_drop]
    omega

/-- C10: every list-returning client operation returns the decoded list
unchanged when the limit is not positive or the list is no longer than the
limit, and otherwise returns exactly the last `Limit` elements — a suffix of
the decoded list of length `Limit`. -/
theorem client_limit_suffix (c : Client) (ps : List ProjectV3Info)
    (vs : List VersionV3Response) (vr : VersionV3Response) (bs : List BuildV3Response) :
    ((¬ (0 < c.limit ∧ c.limit < (ps.length : Int)) → GetProjects c ps = ps) ∧
      (0 < c.limit → c.limit < (ps.length : Int) →
        GetProjects c ps = ps.drop (ps.length - c.limit.toNat) ∧
        GetProjects c ps <:+ ps ∧ ((GetProjects c ps).length : Int) = c.limit)) ∧
    ((¬ (0 < c.limit ∧ c.limit < (vs.length : Int)) → GetVersions c vs = vs) ∧
      (0 < c.limit → c.limit < (vs.length : Int) →
        GetVersions c vs = vs.drop (vs.length - c.limit.toNat) ∧
        GetVersions c vs <:+ vs ∧ ((GetVersions c vs).length : Int) = c.limit)) ∧
    ((¬ (0 < c.limit ∧ c.limit < (vr.builds.length : Int)) →
        (GetVersion c vr).builds = vr.builds) ∧
      (0 < c.limit → c.limit < (vr.builds.length : Int) →
        (GetVersion c vr).builds = vr.builds.drop (vr.builds.length - c.limit.toNat) ∧
        (GetVersion c vr).builds <:+ vr.builds ∧
        (((GetVersion c vr).builds).length : Int) = c.limit)) ∧
    ((¬ (0 < c.limit ∧ c.limit < (bs.length : Int)) →
        GetBuilds c (Except.ok bs) = Except.ok bs) ∧
      (0 < c.limit → c.limit < (bs.length : Int) →
        GetBuilds c (Except.ok bs) = Except.ok (bs.drop (bs.length - c.limit.toNat)) ∧
        applyLimit c.limit bs <:+ bs ∧ ((applyLimit c.limit bs).length : Int) = c.limit)) := by
  refine ⟨⟨?_, ?_⟩, ⟨?_, ?_⟩, ⟨?_, ?_⟩, ⟨?_, ?_⟩⟩
  · exact (applyLimit_spec c.limit ps).1
  · exact (applyLimit_spec c.limit ps).2
  · exact (applyLimit_spec c.limit vs).1
  · exact (applyLimit_spec c.limit vs).2
  · exact fun h => congrArg VersionV3Response.builds
      (by show GetVersion c vr = _; rw [GetVersion, (applyLimit_spec c.limit vr.builds).1 h])
  · intro h1 h2
    have hs := (applyLimit_spec c.limit vr.builds).2 h1 h2
    exact ⟨hs.1, hs.2.1, hs.2.2⟩
  · intro h
    show Except.map (applyLimit c.limit) (Except.ok bs) = Except.ok bs
    rw [Except.map, (applyLimit_spec c.limit bs).1 h]
  · intro h1 h2
    have hs := (applyLimit_spec c.limit bs).2 h1 h2
    refine ⟨?_, hs.2.1, hs.2.2⟩
    show Except.map (applyLimit c.limit) (Except.ok bs) = _
    rw [Except.map, hs.1]

/-- C10 (witness): a limit of 2 applied to three-element payloads keeps
exactly the last two elements; with the limit unset the payloads pass
through. -/
theorem client_limit_suffix_witness :
    GetVersions ⟨"https://fill.papermc.io", 2, ""⟩
        [⟨⟨"1.19"⟩, [1]⟩, ⟨⟨"1.20"⟩, [2]⟩, ⟨⟨"1.21"⟩, [3]⟩] =
      [⟨⟨"1.20"⟩, [2]⟩, ⟨⟨"1.21"⟩, [3]⟩] ∧
    GetVersions ⟨"https://fill.papermc.io", 0, ""⟩
        [⟨⟨"1.19"⟩, [1]⟩, ⟨⟨"1.20"⟩, [2]⟩, ⟨⟨"1.21"⟩, [3]⟩] =
      [⟨⟨"1.19"⟩, [1]⟩, ⟨⟨"1.20"⟩, [2]⟩, ⟨⟨"1.21"⟩, [3]⟩] :=
  ⟨((client_limit_suffix ⟨"https://fill.papermc.io", 2, ""⟩ []
      [⟨⟨"1.19"⟩, [1]⟩, ⟨⟨"1.20"⟩, [2]⟩, ⟨⟨"1.21"⟩, [3]⟩] ⟨⟨"x"⟩, []⟩ []).2.1.2
      (by decide) (by decide)).1,
    (client_limit_suffix ⟨"https://fill.papermc.io", 0, ""⟩ []
      [⟨⟨"1.19"⟩, [1]⟩, ⟨⟨"1.20"⟩, [2]⟩, ⟨⟨"1.21"⟩, [3]⟩] ⟨⟨"x"⟩, []⟩ []).2.1.1
      (by decide)⟩

/-! ## Claim on `FindPromotedBuild` (C2) -/

theorem getLast_append_single : ∀ (bs : List α) (b : α) (h : bs ++ [b] ≠ []),
    (bs ++ [b]).getLast h = b
  | [], _, _ => rfl
  | x :: xs, b, _ =>
    (List.getLast_cons (by simp)).trans (getLast_append_single xs b (by simp))

/-- C2 (counterexample): `FindPromotedBuild` returns the ID of the *last*
build of the recommended-channel list, which is not the maximum ID when the
server returns the builds out of order. -/
theorem FindPromotedBuild_last_not_max_counterexample :
    FindPromotedBuild ⟨"https://fill.papermc.io", 0, ""⟩
      (Except.ok [⟨5, "RECOMMENDED", []⟩, ⟨3, "RECOMMENDED", []⟩])
      (Except.ok []) (Except.ok []) (Except.error ()) = Except.ok 3 ∧
    (3 : Int) < 5 ∧
    (5 : Int) ∈ ([⟨5, "RECOMMENDED", []⟩, ⟨3, "RECOMMENDED", []⟩] :
      List BuildV3Response).map BuildV3Response.id :=
  ⟨rfl, by decide, by decide⟩

/-- C2 (amended): `FindPromotedBuild` returns the ID of the last element of
the (limit-truncated) recommended-channel list when that query succeeds with
a non-empty list; otherwise the last element of the stable-channel list;
otherwise the `GetLatestBuildV3` result.  The last element carries the
maximum ID exactly when the returned list ascends by ID. -/
theorem FindPromotedBuild_fallback (c : Client)
    (recommendedResp stableResp channelResp : Except Unit (List BuildV3Response))
    (latestResp : Except Unit BuildV3Response) :
    (∀ bs b, GetBuilds c recommendedResp = Except.ok (bs ++ [b]) →
      FindPromotedBuild c recommendedResp stableResp channelResp latestResp =
        Except.ok b.id) ∧
    ((GetBuilds c recommendedResp = Except.ok [] ∨
        GetBuilds c recommendedResp = Except.error ()) →
      ∀ bs b, GetBuilds c stableResp = Except.ok (bs ++ [b]) →
        FindPromotedBuild c recommendedResp stableResp channelResp latestResp =
          Except.ok b.id) ∧
    ((GetBuilds c recommendedResp = Except.ok [] ∨
        GetBuilds c recommendedResp = Except.error ()) →
      (GetBuilds c stableResp = Except.ok [] ∨ GetBuilds c stableResp = Except.error ()) →
      FindPromotedBuild c recommendedResp stableResp channelResp latestResp =
        (GetLatestBuildV3 c channelResp latestResp).map BuildV3Response.id) ∧
    (∀ bs (b : BuildV3Response), (bs ++ [b]).Pairwise (fun x y => x.id ≤ y.id) →
      ∀ x ∈ bs ++ [b], x.id ≤ b.id) := by
  refine ⟨?_, ?_, ?_, ?_⟩
  · intro bs b h
    rw [FindPromotedBuild, h]
    rcases bs with _ | ⟨x, xs⟩
    · rfl
    · show Except.ok (((x :: xs) ++ [b]).getLast (List.cons_ne_nil x (xs ++ [b]))).id =
        Except.ok b.id
      exact congrArg (fun z => Except.ok (BuildV3Response.id z))
        (getLast_append_single (x :: xs) b _)
  · intro hrec bs b h
    have hmain : FindPromotedBuild c recommendedResp stableResp channelResp latestResp =
        (match GetBuilds c stableResp with
        | Except.ok (b :: bs) => Except.ok (((b :: bs).getLast (List.cons_ne_nil b bs)).id)
        | _ =>
          match GetLatestBuildV3 c channelResp latestResp with
          | Except.error e => Except.error e
          | Except.ok b => Except.ok b.id) := by
      rcases hrec with hrec | hrec <;> rw [FindPromotedBuild, hrec]
    rw [hmain, h]
    rcases bs with _ | ⟨x, xs⟩
    · rfl
    · show Except.ok (((x :: xs) ++ [b]).getLast (List.cons_ne_nil x (xs ++ [b]))).id =
        Except.ok b.id
      exact congrArg (fun z => Except.ok (BuildV3Response.id z))
        (getLast_append_single (x :: xs) b _)
  · intro hrec hst
    have hmain : FindPromotedBuild c recommendedResp stableResp channelResp latestResp =
        (match GetLatestBuildV3 c channelResp latestResp with
        | Except.error e => Except.error e
        | Except.ok b => Except.ok b.id) := by
      rcases hrec with hrec | hrec <;> rcases hst with hst | hst <;>
        rw [FindPromotedBuild, hrec, hst]
    rw [hmain]
    rcases GetLatestBuildV3 c channelResp latestResp with e | b <;> simp [Except.map]
  · intro bs b hpw x hx
    rcases List.mem_append.mp hx with hx | hx
    · have hcross := (List.pairwise_append.mp hpw).2.2
      exact hcross x hx b (by simp)
    · rw [List.mem_singleton.mp hx]

/-- C2 (witness): the fallback theorem applied to a recommended list ending
in build 7 after an inert limit. -/
theorem FindPromotedBuild_fallback_witness :
    FindPromotedBuild ⟨"https://fill.papermc.io", 0, ""⟩
      (Except.ok [⟨3, "RECOMMENDED", []⟩, ⟨7, "RECOMMENDED", []⟩])
      (Except.ok []) (Except.ok []) (Except.error ()) = Except.ok 7 :=
  (FindPromotedBuild_fallback ⟨"https://fill.papermc.io", 0, ""⟩
      (Except.ok [⟨3, "RECOMMENDED", []⟩, ⟨7, "RECOMMENDED", []⟩])
      (Except.ok []) (Except.ok []) (Except.error ())).1
    [⟨3, "RECOMMENDED", []⟩] ⟨7, "RECOMMENDED", []⟩ rfl

/-! ## Claim on `GetRecommendedVersion` (C4) -/

theorem find?_reverse_split {p : α → Bool} (l : List α) :
    ∀ {v : α}, l.reverse.find? p = some v →
      ∃ l1 l2, l = l1 ++ v :: l2 ∧ (∀ w ∈ l2, p w = false) ∧ p v = true := by
  induction l using List.reverseRecOn with
  | nil => intro v h; simp at h
  | append_singleton init a ih =>
    intro v h
    rw [List.reverse_append, List.reverse_singleton, List.singleton_append,
      List.find?_cons] at h
    cases hpa : p a <;> simp only [hpa] at h
    · obtain ⟨l1, l2, hsplit, hall, hv⟩ := ih h
      refine ⟨l1, l2 ++ [a], by rw [hsplit]; simp, ?_, hv⟩
      intro w hw
      rcases List.mem_append.mp hw with hw | hw
      · exact hall w hw
      · rw [List.mem_singleton.mp hw]
        exact hpa
    · cases h
      exact ⟨init, [], rfl, by simp, hpa⟩

theorem find?_reverse_none {p : α → Bool} {l : List α} (h : l.reverse.find? p = none) :
    ∀ w ∈ l, p w = false := by
  intro w hw
  have := List.find?_eq_none.mp h w (by simpa using hw)
  simpa using this

/-- C4: for every project whose flattened version list is non-empty,
`GetRecommendedVersion` succeeds with a version `v` that splits the flattened
list as `l1 ++ v :: l2` where everything newer than `v` (the suffix `l2`) is
a prerelease; and `v` itself is a prerelease only in the all-prerelease case,
where it is the newest version (`l2 = []` and the prefix is all
prereleases too). -/
theorem GetRecommendedVersion_spec (p : ProjectV3Response) (h : FlattenVersions p ≠ []) :
    ∃ v l1 l2, GetRecommendedVersion p = Except.ok v ∧
      FlattenVersions p = l1 ++ v :: l2 ∧
      (∀ w ∈ l2, isSnapshotOrPreRelease w = true) ∧
      (isSnapshotOrPreRelease v = true →
        l2 = [] ∧ ∀ w ∈ l1, isSnapshotOrPreRelease w = true) := by
  rw [GetRecommendedVersion]
  rcases hf : findStableFromEnd (FlattenVersions p) with _ | v
  · refine ⟨(FlattenVersions p).getLast h, (FlattenVersions p).dropLast, [], ?_, ?_, ?_, ?_⟩
    · simp [h, hf]
    · exact (List.dropLast_append_getLast h).symm
    · simp
    · intro _
      refine ⟨rfl, ?_⟩
      intro w hw
      have hall := find?_reverse_none hf
      have := hall w (List.dropLast_subset _ hw)
      simpa using this
  · obtain ⟨l1, l2, hsplit, hall, hv⟩ := find?_reverse_split (FlattenVersions p) hf
    refine ⟨v, l1, l2, by simp [h, hf], hsplit, ?_, ?_⟩
    · intro w hw
      have := hall w hw
      simpa using this
    · intro hv'
      rw [hv'] at hv
      simp at hv

/-- C4 (witness): the specification applied to a project with one release and
one newer release candidate: the recommended version is the release. -/
theorem GetRecommendedVersion_spec_witness :
    FlattenVersions ⟨⟨"paper", "Paper"⟩, [("1.21", ["1.21.11", "1.21.12-rc1"])]⟩ ≠ [] ∧
    (∃ v l1 l2, GetRecommendedVersion
        ⟨⟨"paper", "Paper"⟩, [("1.21", ["1.21.11", "1.21.12-rc1"])]⟩ = Except.ok v ∧
      FlattenVersions ⟨⟨"paper", "Paper"⟩, [("1.21", ["1.21.11", "1.21.12-rc1"])]⟩ =
        l1 ++ v :: l2 ∧
      (∀ w ∈ l2, isSnapshotOrPreRelease w = true) ∧
      (isSnapshotOrPreRelease v = true →
        l2 = [] ∧ ∀ w ∈ l1, isSnapshotOrPreRelease w = true)) :=
  ⟨by decide, GetRecommendedVersion_spec ⟨⟨"paper", "Paper"⟩,
    [("1.21", ["1.21.11", "1.21.12-rc1"])]⟩ (by decide)⟩

/-! ## Claim on `isSnapshotOrPreRelease` (C7) -/

theorem hasSubstr_iff : ∀ s pat : List Char, hasSubstr s pat = true ↔ pat <:+: s := by
  intro s
  induction s with
  | nil =>
    intro pat
    rw [hasSubstr]
    rcases pat with _ | ⟨c, t⟩
    · simp [List.isPrefixOf]
    · simp [List.isPrefixOf]
  | cons c t ih =>
    intro pat
    rw [hasSubstr]
    by_cases hp : List.isPrefixOf pat (c :: t)
    · simp only [hp, if_pos]
      simp only [true_iff]
      exact (List.isPrefixOf_iff_prefix.mp hp).isInfix
    · rw [if_neg hp]
      show hasSubstr t pat = true ↔ pat <:+: c :: t
      rw [ih pat, List.infix_cons_iff]
      constructor
      · exact Or.inr
      · rintro (hpre | hinf)
        · exact absurd (List.isPrefixOf_iff_prefix.mpr hpre) hp
        · exact hinf

/-- C7: the current (v3) `isSnapshotOrPreRelease` returns true exactly when
the lowercased identifier contains `"snapshot"`, `"-pre"` or `"-rc"` as a
substring. -/
theorem isSnapshotOrPreRelease_characterization (v : String) :
    isSnapshotOrPreRelease v = true ↔
      ("snapshot".data <:+: v.data.map asciiToLower ∨
       "-pre".data <:+: v.data.map asciiToLower ∨
       "-rc".data <:+: v.data.map asciiToLower) := by
  rw [isSnapshotOrPreRelease]
  simp only [Bool.or_eq_true, hasSubstr_iff, or_assoc]

/-- C7 (counterexample): the legacy v2 `isSnapshotOrPreRelease` (sources also
cite it) does not satisfy the claim: `"1.21.11-rc3"` contains `"-rc"` but the
v2 helper only tests the case-sensitive suffixes `"SNAPSHOT"` and `"pre"` and
returns false. -/
theorem isSnapshotOrPreReleaseV2_counterexample :
    isSnapshotOrPreReleaseV2 "1.21.11-rc3" = false ∧
    "-rc".data <:+: ("1.21.11-rc3".data.map asciiToLower) := by
  refine ⟨by decide, "1.21.11".data, "3".data, by decide⟩
